import Mathlib

/-!
Verification development for the HolisticaQuant incremental delivery and
playback pipeline (client website).

Strings from the TypeScript source are modelled as `List Char`; JavaScript
string operations (`slice`, `trim`, `split`, concatenation, `.length`) are
modelled by the corresponding list operations.  JavaScript truthiness of an
optional string (`undefined` and `""` are falsy) is modelled by `strTruthy`.

The modelled source locations are:
  * `src/website/src/pages/ResearchLab.tsx` — timeline scheduler, segmenter,
    websocket session and HTTP fallback;
  * `src/website/src/pages/QAEngine.tsx` — streaming Q&A session
    (`handleSendMessage`, `appendStreamSegment`, `handleFinal`);
  * `src/unnamed/part_001` (LearningStudio) — its `fallbackToHttp`;
  * `src/website/src/lib/apiClient.ts` — `getWebSocketBase`.
-/

/-- Whitespace as relevant to this code base: the characters that actually
occur around the trimmed chunks (space, newline, tab, carriage return).
JavaScript `trim` strips a larger Unicode class, but only these occur here. -/
def isWs (c : Char) : Bool :=
  c == ' ' || c == '\n' || c == '\t' || c == '\r'

/-- JavaScript `String.prototype.trim`: drop leading and trailing whitespace. -/
def trim (s : List Char) : List Char :=
  ((s.dropWhile isWs).reverse.dropWhile isWs).reverse

/-- The non-whitespace characters of a string, in order.  Two strings that are
equal "modulo whitespace normalization" have equal `stripWs` images. -/
def stripWs (s : List Char) : List Char :=
  s.filter (fun c => !(isWs c))

/-- JavaScript truthiness of an optional string: `undefined` and `""` are
falsy, every non-empty string is truthy. -/
def strTruthy : Option (List Char) → Bool
  | none => false
  | some s => !s.isEmpty

/-! ### The segmenter (ResearchLab.tsx, `pushTimelineEvent`, lines 287-325) -/

/-- Source constant, `ResearchLab.tsx` line 81: `const TIMEWRITER_INTERVAL_MS = 24`. -/
def TIMEWRITER_INTERVAL_MS : Nat := 24

/-- Source constant, `ResearchLab.tsx` line 82: `const TIMELINE_SWITCH_DELAY_MS = 240`. -/
def TIMELINE_SWITCH_DELAY_MS : Nat := 240

/-- Source constant, `ResearchLab.tsx` line 83: `const TIMELINE_CHUNK_LENGTH = 540`. -/
def TIMELINE_CHUNK_LENGTH : Nat := 540

mutual

/-- Models `content.split(/\n\n+/)`: accumulate the current paragraph in `acc`; a run
of two or more newlines terminates it.  (JavaScript regex split on `\n\n+`
consumes each maximal run of at least two newlines as one separator.) -/
def splitParasAux (acc : List Char) : List Char → List (List Char)
  | [] => [acc]
  | '\n' :: '\n' :: rest => acc :: splitSkip rest
  | c :: rest => splitParasAux (acc ++ [c]) rest
termination_by s => 2 * s.length

/-- After a `\n\n` separator has been found, greedily consume the remaining
newlines of the run, then start the next paragraph. -/
def splitSkip : List Char → List (List Char)
  | '\n' :: rest => splitSkip rest
  | [] => splitParasAux [] []
  | c :: rest => splitParasAux [] (c :: rest)
termination_by s => 2 * s.length + 1

end

/-- Models `const paragraphs = content.split(/\n\n+/)`. -/
def splitParas (content : List Char) : List (List Char) :=
  splitParasAux [] content

/-- The hard-slice loop for one oversized paragraph (lines 308-313):
`para.slice(pointer, pointer + TIMELine_CHUNK_LENGTH).trim()` pushed for each
window.  For `1 ≤ k` the recursive argument `cs.drop (k - 1)` is exactly
`(c :: cs).drop k`, i.e. the source's `pointer += k`; the source would loop
forever at `k = 0`, so every theorem assumes `0 < k`. -/
def sliceChunks (k : Nat) : List Char → List (List Char)
  | [] => []
  | c :: cs => trim ((c :: cs).take k) :: sliceChunks k (cs.drop (k - 1))
termination_by s => s.length
decreasing_by
  simp only [List.length_cons, List.length_drop]
  omega

/-- Models `flushBuffer` (lines 291-296): push `buffer.trim()` when it is non-empty.
(The `buffer = ''` reset is handled by the callers below.) -/
def flushSeg (buf : List Char) : List (List Char) :=
  if (trim buf).isEmpty then [] else [trim buf]

/-- The body of the `paragraphs.forEach` callback (lines 297-316) without the
trailing last-index flush: given the current buffer and the next paragraph,
return the segments emitted for this paragraph and the new buffer. -/
def segStep (k : Nat) (buf para : List Char) : List (List Char) × List Char :=
  let candidate := if buf.isEmpty then para else buf ++ '\n' :: '\n' :: para
  if candidate.length ≤ k then ([], candidate)
  else
    let flushed := if buf.isEmpty then [] else flushSeg buf
    if para.length ≤ k then (flushed, para)
    else (flushed ++ sliceChunks k para, [])

/-- The full `paragraphs.forEach` loop (lines 297-320): on the last paragraph a
non-empty buffer is flushed (`index === paragraphs.length - 1 && buffer`). -/
def segLoop (k : Nat) (buf : List Char) : List (List Char) → List (List Char)
  | [] => []
  | [p] =>
      let r := segStep k buf p
      r.1 ++ (if r.2.isEmpty then [] else flushSeg r.2)
  | p :: q :: ps =>
      let r := segStep k buf p
      r.1 ++ segLoop k r.2 (q :: ps)

/-- The segmenter of `pushTimelineEvent` (lines 288-320): the `segments` array
built from `content` with threshold `k`. -/
def segmentContent (k : Nat) (content : List Char) : List (List Char) :=
  segLoop k [] (splitParas content)

/-! ### apiClient.ts, `getWebSocketBase` (lines 30-39) -/

/-- Boolean string-prefix test (`String.prototype.startsWith`). -/
def isPre : List Char → List Char → Bool
  | [], _ => true
  | _ :: _, [] => false
  | a :: as, b :: bs => a == b && isPre as bs

/-- Models `getWebSocketBase` (apiClient.ts lines 30-39).  The last branch models
`httpBase.replace(/^http/, 'ws')`: the regex is anchored at the start, so it
rewrites only a leading `"http"` and leaves any other base unchanged. -/
def getWebSocketBase (httpBase : List Char) : List Char :=
  if isPre "https://".data httpBase then "wss://".data ++ httpBase.drop 8
  else if isPre "http://".data httpBase then "ws://".data ++ httpBase.drop 7
  else if isPre "http".data httpBase then "ws".data ++ httpBase.drop 4
  else httpBase

/-- Modelled from the claim's words, not from the source: replace the first
occurrence of `"http"` anywhere in the string by `"ws"`.  Used only to compare
the claim's description with `getWebSocketBase`. -/
def replaceFirstHttp : List Char → List Char
  | 'h' :: 't' :: 't' :: 'p' :: rest => 'w' :: 's' :: rest
  | [] => []
  | c :: rest => c :: replaceFirstHttp rest

/-! ### The display queue and playback scheduler
(ResearchLab.tsx lines 104-129 and 240-333; LearningStudio, `src/unnamed/part_001`,
has a character-identical copy of the scheduler at lines 224-274.) -/

/-- Models `TimelineEvent` (ResearchLab.tsx lines 62-66).  The `id` field (a
timestamp-plus-random string used only as a React key) is not modelled. -/
structure TLEvent where
  title : List Char
  content : Option (List Char)
deriving DecidableEq, Repr

/-- The one pending `setTimeout` callback held in `typewriterRef`:
either the next `runTypewriter(index)` step for `content`, or the
switch-delay callback that re-arms the queue (lines 250-274). -/
inductive Timer where
  | typing (content : List Char) (index : Nat) (delay : Nat)
  | advance (delay : Nat)
deriving DecidableEq, Repr

/-- The mutable state owned by one screen's timeline pipeline:
`timelineQueueRef`, `timelineProcessingRef`, `typewriterRef`,
`currentTimelineEvent`, `timelineRenderedContent`.
`enqueued` and `history` are history variables that do not exist in the
source: they record, in order, every event ever appended to the queue and
every event ever consumed from it (set as `currentTimelineEvent`).  They
influence no control flow and are used only to state ordering properties. -/
structure LabState where
  queue : List TLEvent
  processing : Bool
  timer : Option Timer
  current : Option TLEvent
  rendered : List Char
  enqueued : List TLEvent
  history : List TLEvent
deriving DecidableEq, Repr

/-- The initial pipeline state of a fresh screen. -/
def initLab : LabState := ⟨[], false, none, none, [], [], []⟩

/-- Models `processTimelineQueue` (lines 240-275): dequeue the queue head unless a
reveal is already in progress; an event whose content is absent or empty
(`if (!nextEvent.content)`) only occupies one switch-delay slot, any other
event arms the first `runTypewriter(0)` tick. -/
def processTimelineQueue (s : LabState) : LabState :=
  if s.processing then s
  else
    match s.queue with
    | [] => s
    | e :: rest =>
      let s1 : LabState :=
        { s with queue := rest, processing := true, current := some e,
                 history := s.history ++ [e] }
      match e.content with
      | none =>
          { s1 with rendered := [], timer := some (Timer.advance TIMELINE_SWITCH_DELAY_MS) }
      | some c =>
          if c.isEmpty then
            { s1 with rendered := [], timer := some (Timer.advance TIMELINE_SWITCH_DELAY_MS) }
          else
            { s1 with rendered := [], timer := some (Timer.typing c 0 TIMEWRITER_INTERVAL_MS) }

/-- Firing the pending timer, if any: a `typing` step reveals one more
character (`content.slice(0, index + 1)`) and re-arms either the next step or
the switch delay; the `advance` callback clears `typewriterRef`, resets
`timelineProcessingRef` and drains the next queued event. -/
def fireTimer (s : LabState) : LabState :=
  match s.timer with
  | none => s
  | some (Timer.advance _) =>
      processTimelineQueue { s with timer := none, processing := false }
  | some (Timer.typing c i _) =>
      let s1 : LabState := { s with rendered := c.take (i + 1) }
      if i + 1 < c.length then
        { s1 with timer := some (Timer.typing c (i + 1) TIMEWRITER_INTERVAL_MS) }
      else
        { s1 with timer := some (Timer.advance TIMELINE_SWITCH_DELAY_MS) }

/-- Iterated timer firing ("advance fake time by `n` pending timers"). -/
def iterFire : Nat → LabState → LabState
  | 0, s => s
  | n + 1, s => iterFire n (fireTimer s)

/-- Models `stopTypewriter` (lines 116-121): clear the pending timeout. -/
def stopTypewriter (s : LabState) : LabState := { s with timer := none }

/-- Models `resetTimeline` (lines 123-129): stop the typewriter, clear the queue,
reset the processing flag and blank the display. -/
def resetTimeline (s : LabState) : LabState :=
  { s with timer := none, queue := [], processing := false,
           current := none, rendered := [] }

/-- Mapping with the element index, used to model the `segments.forEach((segment, idx))`
enqueue loop. -/
def mapIdxFrom {α β : Type} (f : Nat → α → β) (i : Nat) : List α → List β
  | [] => []
  | a :: as => f i a :: mapIdxFrom f (i + 1) as

/-- The chunk title of segment `idx`: `idx === 0 ? '' : ` · 续${idx + 1}``
appended to the parent title (line 323). -/
def mkChunkTitle (title : List Char) (idx : Nat) : List Char :=
  if idx = 0 then title else title ++ (" · 续" ++ Nat.repr (idx + 1)).data

/-- The list of events one `pushTimelineEvent(title, content)` call appends to
the queue (lines 277-331): the segmenter's chunks when the content is truthy
and longer than `TIMELINE_CHUNK_LENGTH`, otherwise the single event itself. -/
def pushedEvents (title : List Char) (content : Option (List Char)) : List TLEvent :=
  if strTruthy content && decide (TIMELINE_CHUNK_LENGTH < (content.getD []).length) then
    mapIdxFrom (fun i seg => ⟨mkChunkTitle title i, some seg⟩) 0
      (segmentContent TIMELINE_CHUNK_LENGTH (content.getD []))
  else
    [⟨title, content⟩]

/-- Models `pushTimelineEvent` (ResearchLab.tsx lines 277-333): append the events and
kick the queue. -/
def pushTimelineEvent (title : List Char) (content : Option (List Char))
    (s : LabState) : LabState :=
  let evts := pushedEvents title content
  processTimelineQueue { s with queue := s.queue ++ evts, enqueued := s.enqueued ++ evts }

/-- The operations a screen performs on its timeline pipeline during one
session: pushing an event and a pending timer firing. -/
inductive LabOp where
  | push (title : List Char) (content : Option (List Char))
  | tick

/-- One pipeline operation. -/
def labStep (s : LabState) : LabOp → LabState
  | .push t c => pushTimelineEvent t c s
  | .tick => fireTimer s

/-- Run a sequence of pipeline operations from the fresh state. -/
def runLab (ops : List LabOp) : LabState := ops.foldl labStep initLab

/-- Termination measure for `timerChainTime`. -/
def timerMeasure : Timer → Nat
  | .advance _ => 0
  | .typing c i _ => (c.length - i) + 1

/-- The total delay, in milliseconds, of the timer chain armed by the
scheduler, from the given pending timer until its `advance` callback fires:
each `typing` step re-arms the next step after `TIMEWRITER_INTERVAL_MS`, the
last character is followed by one `TIMELINE_SWITCH_DELAY_MS` pause.  This
mirrors the re-arming in `fireTimer` literally. -/
def timerChainTime : Timer → Nat
  | .advance d => d
  | .typing c i d =>
      d + (if i + 1 < c.length then
             timerChainTime (Timer.typing c (i + 1) TIMEWRITER_INTERVAL_MS)
           else
             timerChainTime (Timer.advance TIMELINE_SWITCH_DELAY_MS))
termination_by t => timerMeasure t
decreasing_by
  · simp [timerMeasure]
    omega
  · simp [timerMeasure]

/-! ### The ResearchLab channel session and fallback controller
(ResearchLab.tsx, `handleGenerate`, lines 486-600) -/

/-- The parts of a `QueryResponse` that `applyFinalResponse` (lines 441-484)
renders: `dataPreview` models `dataSummary.analysis_preview ||
dataSummary.full_report` (absent when the metadata carries no
`data_analysis_summary`), `strategyLine` the `建议/目标价/置信度` summary line
joined with `｜` (absent when there is no `strategy_summary`). -/
structure RLResponse where
  dataPreview : Option (List Char)
  strategyLine : Option (List Char)
deriving DecidableEq, Repr

/-- Models `applyFinalResponse` (lines 441-484): push the follow-up events directly
onto the queue, kick the queue, then push the completion event via
`pushTimelineEvent`.  The completion title is modelled for the
template-absent default `'投研报告已生成'`. -/
def applyFinalResponse (resp : RLResponse) (completion : Option (List Char))
    (lab : LabState) : LabState :=
  let followUps : List TLEvent :=
    (match resp.dataPreview with
     | some p => if p.isEmpty then [] else [⟨"数据分析完成".data, some p⟩]
     | none => [])
    ++ (match resp.strategyLine with
     | some l => if l.isEmpty then [] else [⟨"策略建议完成".data, some l⟩]
     | none => [])
  let lab1 := if followUps.isEmpty then lab
              else processTimelineQueue
                     { lab with queue := lab.queue ++ followUps,
                                enqueued := lab.enqueued ++ followUps }
  pushTimelineEvent "投研报告已生成".data completion lab1

/-- The session-local state of one `handleGenerate` run: the `finalReceived`
and `fallbackTriggered` closure variables (lines 526-527), the React error /
progress state, and the timeline pipeline.  `httpCalls` counts every
invocation of the blocking `runQuery` call; `pendingHttp` counts issued but
not yet resolved blocking calls. -/
structure RLState where
  finalReceived : Bool
  fallbackTriggered : Bool
  httpCalls : Nat
  pendingHttp : Nat
  errorMessage : Option (List Char)
  isGenerating : Bool
  lab : LabState
deriving DecidableEq, Repr

/-- Session state right after `handleGenerate` reset the pipeline and set
`isGenerating` (lines 494-527), before any channel event. -/
def rlInit : RLState := ⟨false, false, 0, 0, none, true, initLab⟩

/-- The synchronous prefix of `fallbackToHttp` (lines 529-535): the guard, the
idempotence flag, the optional "switching mode" event, and the issuing of the
one blocking `runQuery` call (the `await` suspends afterwards, so everything
here happens before any other handler can run). -/
def rlFallbackStart (reason : Option (List Char)) (s : RLState) : RLState :=
  if s.fallbackTriggered || s.finalReceived then s
  else
    let s1 : RLState := { s with fallbackTriggered := true }
    let s2 : RLState :=
      match reason with
      | some r => { s1 with lab := pushTimelineEvent "切换模式".data (some r) s1.lab }
      | none => s1
    { s2 with httpCalls := s2.httpCalls + 1, pendingHttp := s2.pendingHttp + 1 }

/-- A classified inbound channel message (ResearchLab.tsx lines 557-585).
`malformed` stands for any payload whose parse or shape check throws: it is
dropped and logged. -/
inductive RLMsg where
  | status (message : Option (List Char))
  | timeline (title : List Char) (content : Option (List Char))
  | final (resp : RLResponse)
  | errMsg (message : List Char)
  | malformed

/-- The events that can reach one ResearchLab session, in delivery order:
channel messages, the channel `onerror` and `onclose` callbacks, and the
resolution of an issued blocking fallback call. -/
inductive RLOp where
  | message (m : RLMsg)
  | errorEvt
  | closeEvt
  | httpOk (resp : RLResponse)
  | httpFail (message : List Char)

/-- One delivered event of a ResearchLab session (lines 529-600):
`socket.onmessage` ignores non-terminal messages once `finalReceived` is set;
`onerror` starts the fallback with a reason; `onclose` starts it without one
unless a final was seen; a resolved blocking call applies the final response
or surfaces the error (the continuation of `fallbackToHttp` after its
`await`). -/
def rlStep (s : RLState) : RLOp → RLState
  | .message m =>
    match m with
    | .status message =>
        if s.finalReceived then s
        else { s with lab := pushTimelineEvent "进度更新".data message s.lab }
    | .timeline title content =>
        if s.finalReceived then s
        else { s with lab := pushTimelineEvent title content s.lab }
    | .final resp =>
        let lab1 := applyFinalResponse resp none (stopTypewriter s.lab)
        { s with finalReceived := true, lab := lab1, isGenerating := false }
    | .errMsg message =>
        { s with errorMessage := some message,
                 lab := pushTimelineEvent "请求失败".data (some message) s.lab,
                 isGenerating := false }
    | .malformed => s
  | .errorEvt => rlFallbackStart (some "WebSocket 连接异常，改用普通模式。".data) s
  | .closeEvt => if s.finalReceived then s else rlFallbackStart none s
  | .httpOk resp =>
      if s.pendingHttp = 0 then s
      else
        let s1 : RLState := { s with pendingHttp := s.pendingHttp - 1, finalReceived := true }
        { s1 with lab := applyFinalResponse resp (some "HTTP 模式下完成分析。".data) s1.lab,
                  isGenerating := false }
  | .httpFail message =>
      if s.pendingHttp = 0 then s
      else
        { s with pendingHttp := s.pendingHttp - 1, errorMessage := some message,
                 lab := pushTimelineEvent "请求失败".data (some message) s.lab,
                 isGenerating := false }

/-- Run a ResearchLab session over a delivered event sequence. -/
def rlRun (ops : List RLOp) : RLState := ops.foldl rlStep rlInit

/-! ### The QAEngine streaming session
(QAEngine.tsx, `handleSendMessage`, lines 602-826) -/

/-- QAEngine's per-character interval: `const interval = 18` in
`appendStreamSegment` (line 659) and `const perCharInterval = 18` in
`handleFinal` (line 719). -/
def QA_TYPE_INTERVAL_MS : Nat := 18

/-- One entry of the assistant placeholder message's `segments` array. -/
structure QSeg where
  title : List Char
  content : Option (List Char)
deriving DecidableEq, Repr

/-- A pending QAEngine timeout.  None of these handles is ever stored by the
source (`window.setTimeout(...)` results are discarded), so no teardown path
can cancel them.  `appendSeg` is a scheduled `appendStreamSegment` call from
`handleFinal`; `typeStep` is the self re-arming `typewriter` closure;
`finishStream` clears the placeholder's `isStreaming` flag. -/
inductive QTimer where
  | appendSeg (title : List Char) (content : Option (List Char)) (delay : Nat)
  | typeStep (target : Nat) (text : List Char) (pointer : Nat) (delay : Nat)
  | finishStream (delay : Nat)
deriving DecidableEq, Repr

/-- Models JavaScript `trimEnd`: drop trailing whitespace. -/
def trimEnd (s : List Char) : List Char := (s.reverse.dropWhile isWs).reverse

/-- Models `truncate` (QAEngine.tsx lines 635-636):
`text.length <= max ? text : text.slice(0, max - 1).trimEnd() + '…'` with
`max = 260`. -/
def truncate (t : List Char) : List Char :=
  if t.length ≤ 260 then t else trimEnd (t.take 259) ++ ['…']

/-- The session state of one `handleSendMessage` run: the `finalReceived`
closure variable (line 747), the issued blocking fallback calls, the
websocket handle, the React typing flag, and the assistant placeholder
message (`placeholderContent`, `isStreaming`, `segments`).  `timers` is the
multiset of pending, uncancellable timeouts. -/
structure QAState where
  finalReceived : Bool
  httpCalls : Nat
  pendingHttp : Nat
  wsOpen : Bool
  isTyping : Bool
  placeholderContent : List Char
  isStreaming : Bool
  segments : List QSeg
  timers : List QTimer
deriving DecidableEq, Repr

/-- State right after `handleSendMessage` appended the user message and the
streaming placeholder and opened the socket (lines 607-757). -/
def qaInit : QAState := ⟨false, 0, 0, true, true, [], true, [], []⟩

/-- Models `appendStreamSegment` (lines 634-680): truncate the body, append a segment
whose content starts empty (or absent for a body-less segment), and arm the
first `typewriter` tick.  (`body ? truncate(body) : ''` equals
`truncate body` extended with `[]` for the absent case, because
`truncate '' = ''`.)  The timeout handle is discarded by the source. -/
def appendStreamSegment (title : List Char) (body : Option (List Char))
    (s : QAState) : QAState :=
  let finalText := match body with
    | some b => truncate b
    | none => []
  let seg : QSeg := ⟨title, if finalText.isEmpty then none else some []⟩
  let target := s.segments.length
  let s1 : QAState := { s with segments := s.segments ++ [seg] }
  if finalText.isEmpty then s1
  else { s1 with timers := s1.timers ++ [QTimer.typeStep target finalText 0 QA_TYPE_INTERVAL_MS] }

/-- The structured assistant reply handed to `handleFinal`
(`buildAssistantReply`'s output shape, QAEngine.tsx lines 460-469). -/
structure QAReply where
  scenario : Option (List Char)
  content : List Char
  supportingPoints : List (List Char)
  nextActions : List (List Char)
  dataSources : List (List Char)
deriving DecidableEq, Repr

/-- Models `Array.prototype.join('\n')`. -/
def joinNl : List (List Char) → List Char
  | [] => []
  | [x] => x
  | x :: xs => x ++ '\n' :: joinNl xs

/-- The `segments` list `handleFinal` builds from a reply (lines 683-703),
including the `回答` default when everything is empty. -/
def finalSegments (reply : QAReply) : List QSeg :=
  let segs : List QSeg :=
    (match reply.scenario with
     | some sc => if sc.isEmpty then [] else [⟨"场景".data, some sc⟩]
     | none => [])
    ++ (if reply.content.isEmpty then [] else [⟨"回答".data, some reply.content⟩])
    ++ (if reply.supportingPoints.isEmpty then []
        else [⟨"支撑要点".data, some (joinNl reply.supportingPoints)⟩])
    ++ (if reply.nextActions.isEmpty then []
        else [⟨"下一步行动".data, some (joinNl reply.nextActions)⟩])
    ++ (if reply.dataSources.isEmpty then []
        else [⟨"数据来源".data, some (joinNl reply.dataSources)⟩])
  if segs.isEmpty then
    [⟨"回答".data, some (if reply.content.isEmpty then "（暂无）".data else reply.content)⟩]
  else segs

/-- The timeout schedule `handleFinal` creates (lines 719-740): one
`appendStreamSegment` per segment at an accumulated delay
(`delay += Math.max(480, (content?.length ?? 0) * perCharInterval)`), and the
closing `isStreaming := false` timeout at the total. -/
def scheduleFinalSegs (segs : List QSeg) (delay : Nat) : List QTimer × Nat :=
  match segs with
  | [] => ([], delay)
  | seg :: rest =>
      let next := delay + max 480 ((seg.content.getD []).length * QA_TYPE_INTERVAL_MS)
      let r := scheduleFinalSegs rest next
      (QTimer.appendSeg seg.title seg.content delay :: r.1, r.2)

/-- Models `handleFinal` (lines 682-741): reset the placeholder content, keep it
streaming, and schedule the segment reveals. -/
def handleFinal (reply : QAReply) (s : QAState) : QAState :=
  let segs := finalSegments reply
  let s1 : QAState := { s with placeholderContent := [], isStreaming := true }
  let sched := scheduleFinalSegs segs 0
  { s1 with timers := s1.timers ++ sched.1 ++ [QTimer.finishStream sched.2] }

/-- The `setMessages` updater of the `typewriter` closure (lines 664-672):
write `partial` into the target segment, leaving every other segment alone. -/
def setSegContent (segs : List QSeg) (target : Nat) (text : List Char) : List QSeg :=
  mapIdxFrom (fun i seg => if i = target then ⟨seg.title, some text⟩ else seg) 0 segs

/-- Fire the `i`-th pending timeout: a scheduled `appendStreamSegment` runs
it; a `typewriter` step advances `charPointer`, writes the partial text and
re-arms itself while characters remain (lines 661-679); the closing timeout
ends the streaming indicator. -/
def qaFire (i : Nat) (s : QAState) : QAState :=
  match s.timers.get? i with
  | none => s
  | some t =>
    let s1 : QAState := { s with timers := s.timers.eraseIdx i }
    match t with
    | .appendSeg title content _ => appendStreamSegment title content s1
    | .typeStep target text ptr _ =>
        let ptr1 := ptr + 1
        let s2 : QAState := { s1 with segments := setSegContent s1.segments target (text.take ptr1) }
        if ptr1 < text.length then
          { s2 with timers := s2.timers ++ [QTimer.typeStep target text ptr1 QA_TYPE_INTERVAL_MS] }
        else s2
    | .finishStream _ => { s1 with isStreaming := false }

/-- A classified inbound QAEngine channel message (lines 759-796). -/
inductive QAMsg where
  | status (message : List Char)
  | timeline (title : Option (List Char)) (content : Option (List Char))
  | final (reply : QAReply)
  | errMsg (message : List Char)
  | malformed

/-- The events that can reach one QAEngine session: channel messages, the
`onerror` and `onclose` callbacks, the resolution of an issued blocking
fallback call, the unmount cleanup (lines 513-520), and a pending timeout
firing. -/
inductive QAOp where
  | msg (m : QAMsg)
  | errorEvt
  | closeEvt
  | httpResolved (reply : QAReply)
  | teardown
  | fire (i : Nat)

/-- One delivered event of a QAEngine session.  Note what the source does
*not* do: `onmessage` has no `finalReceived` guard for non-terminal messages;
`onerror` (lines 798-807) and `onclose` (lines 809-817) each issue a blocking
`fetchAssistantAnswerHttp` call guarded only by `finalReceived`, with no
`fallbackTriggered` flag; the unmount cleanup closes the socket but cancels
no timeout. -/
def qaStep (s : QAState) : QAOp → QAState
  | .msg m =>
    match m with
    | .status message =>
        if message.isEmpty then s
        else appendStreamSegment "状态".data (some message) s
    | .timeline title content => appendStreamSegment (title.getD "进度".data) content s
    | .final reply =>
        let s1 := handleFinal reply { s with finalReceived := true }
        { s1 with isTyping := false, wsOpen := false }
    | .errMsg message =>
        let s1 := appendStreamSegment "错误".data (some message) s
        { s1 with placeholderContent := message, isStreaming := false,
                  isTyping := false, wsOpen := false }
    | .malformed => s
  | .errorEvt =>
      let s1 : QAState := { s with wsOpen := false }
      if s1.finalReceived then s1
      else { s1 with httpCalls := s1.httpCalls + 1, pendingHttp := s1.pendingHttp + 1 }
  | .closeEvt =>
      if s.finalReceived then s
      else { s with httpCalls := s.httpCalls + 1, pendingHttp := s.pendingHttp + 1 }
  | .httpResolved reply =>
      if s.pendingHttp = 0 then s
      else handleFinal reply { s with pendingHttp := s.pendingHttp - 1, isTyping := false }
  | .teardown => { s with wsOpen := false }
  | .fire i => qaFire i s

/-- Run a QAEngine session over a delivered event sequence. -/
def qaRun (ops : List QAOp) : QAState := ops.foldl qaStep qaInit

/-! ### The LearningStudio fallback controller
(`src/unnamed/part_001`, `fallbackToHttp`, lines 662-745) -/

/-- LearningStudio's session state: the `finalReceived` / `fallbackTriggered`
closure variables (lines 662-663), the task result and metadata, and its
timeline pipeline (a character-identical copy of the ResearchLab scheduler,
whose `pushTimelineEvent` does not segment). -/
structure LSState where
  finalReceived : Bool
  fallbackTriggered : Bool
  httpCalls : Nat
  taskResult : Option (List Char)
  metadataApplied : Bool
  errorMessage : Option (List Char)
  isCalculating : Bool
  lab : LabState
deriving DecidableEq, Repr

/-- LearningStudio session state before any channel event. -/
def lsInit : LSState := ⟨false, false, 0, none, false, none, true, initLab⟩

/-- LearningStudio's `pushTimelineEvent` (part_001 lines 276-286): plain
enqueue of the single event, no segmentation. -/
def lsPushTimelineEvent (title : List Char) (content : Option (List Char))
    (lab : LabState) : LabState :=
  processTimelineQueue
    { lab with queue := lab.queue ++ [⟨title, content⟩],
               enqueued := lab.enqueued ++ [⟨title, content⟩] }

/-- Models `fallbackToHttp` (part_001 lines 665-685), with the outcome of the single
awaited `runQuery` passed in: the guard and `fallbackTriggered := true` run
synchronously; on success the report is trimmed into `taskResult`, the
metadata applied and a completion event pushed — and, unlike the ResearchLab
variant, `finalReceived` is never written. -/
def lsFallbackToHttp (reason : Option (List Char))
    (result : Except (List Char) (List Char)) (s : LSState) : LSState :=
  if s.fallbackTriggered || s.finalReceived then s
  else
    let s1 : LSState := { s with fallbackTriggered := true }
    let s2 : LSState :=
      match reason with
      | some r => { s1 with lab := lsPushTimelineEvent "模式切换".data (some r) s1.lab }
      | none => s1
    let s3 : LSState := { s2 with httpCalls := s2.httpCalls + 1 }
    match result with
    | .ok report =>
        { s3 with taskResult := some (trim report), metadataApplied := true,
                  lab := lsPushTimelineEvent "AI 报告已生成".data
                           (some "HTTP 模式下完成分析。".data) s3.lab,
                  isCalculating := false }
    | .error message =>
        { s3 with errorMessage := some message,
                  lab := lsPushTimelineEvent "请求失败".data (some message) s3.lab,
                  isCalculating := false }

/-- A concrete reply used in the QAEngine evaluations. -/
def sampleReply : QAReply := ⟨none, "ok".data, [], [], []⟩

/-! ## Theorems -/

/-! ### String-utility lemmas -/

theorem length_dropWhile_le (p : Char → Bool) (s : List Char) :
    (s.dropWhile p).length ≤ s.length := by
  induction s with
  | nil => simp
  | cons c t ih =>
    by_cases h : p c <;> simp [List.dropWhile_cons, h] <;> omega

theorem trim_length_le (s : List Char) : (trim s).length ≤ s.length := by
  unfold trim
  have h1 := length_dropWhile_le isWs s
  have h2 := length_dropWhile_le isWs (s.dropWhile isWs).reverse
  simp only [List.length_reverse] at *
  omega

theorem stripWs_append (a b : List Char) :
    stripWs (a ++ b) = stripWs a ++ stripWs b := by
  simp [stripWs, List.filter_append]

theorem stripWs_dropWhile (s : List Char) :
    stripWs (s.dropWhile isWs) = stripWs s := by
  induction s with
  | nil => rfl
  | cons c t ih =>
    by_cases h : isWs c
    · simpa [List.dropWhile_cons, h, stripWs, List.filter_cons] using ih
    · simp [List.dropWhile_cons, h, stripWs, List.filter_cons]

theorem stripWs_reverse (s : List Char) :
    stripWs s.reverse = (stripWs s).reverse := by
  simp [stripWs, List.filter_reverse]

theorem stripWs_trim (s : List Char) : stripWs (trim s) = stripWs s := by
  unfold trim
  rw [stripWs_reverse, stripWs_dropWhile, stripWs_reverse, stripWs_dropWhile,
    List.reverse_reverse]

theorem stripWs_eq_nil_of_trim_eq_nil {s : List Char} (h : trim s = []) :
    stripWs s = [] := by
  rw [← stripWs_trim, h]
  rfl

theorem stripWs_newline_cons (s : List Char) : stripWs ('\n' :: s) = stripWs s := rfl

theorem stripWs_nil : stripWs [] = [] := rfl

theorem stripWs_cons (c : Char) (s : List Char) :
    stripWs (c :: s) = stripWs [c] ++ stripWs s := by
  by_cases h : isWs c <;> simp [stripWs, List.filter_cons, h]

/-! ### Segmenter lemmas (for claims C2 and C6) -/

theorem stripWs_flushSeg (buf : List Char) :
    stripWs (flushSeg buf).flatten = stripWs buf := by
  unfold flushSeg
  by_cases h : (trim buf).isEmpty
  · simp only [List.isEmpty_iff] at h
    simp [h, stripWs_eq_nil_of_trim_eq_nil h, stripWs_nil]
  · simp [h, ← stripWs_trim buf]

theorem splitParas_combined : ∀ acc s : List Char,
    stripWs (splitParasAux acc s).flatten = stripWs acc ++ stripWs s ∧
      splitParasAux acc s ≠ [] := by
  refine splitParasAux.induct
    (fun acc s => stripWs (splitParasAux acc s).flatten = stripWs acc ++ stripWs s ∧
      splitParasAux acc s ≠ [])
    (fun s => stripWs (splitSkip s).flatten = stripWs s ∧ splitSkip s ≠ [])
    ?_ ?_ ?_ ?_ ?_ ?_
  · intro acc
    rw [splitParasAux.eq_1]
    exact ⟨by simp [stripWs_nil], by simp⟩
  · intro acc rest ih
    rw [splitParasAux.eq_2]
    refine ⟨?_, by simp⟩
    simp [stripWs_append, ih.1, stripWs_newline_cons]
  · intro acc c rest hne ih
    rw [splitParasAux.eq_3 _ _ _ hne]
    refine ⟨?_, ih.2⟩
    rw [ih.1, stripWs_append, stripWs_cons c rest, List.append_assoc]
  · intro rest ih
    rw [splitSkip.eq_1]
    exact ⟨by rw [ih.1, stripWs_newline_cons], ih.2⟩
  · intro ih
    rw [splitSkip.eq_2]
    exact ⟨by rw [ih.1]; simp [stripWs_nil], ih.2⟩
  · intro c rest hne ih
    rw [splitSkip.eq_3 _ _ hne]
    exact ⟨by rw [ih.1]; simp [stripWs_nil], ih.2⟩

theorem stripWs_splitParas (content : List Char) :
    stripWs (splitParas content).flatten = stripWs content := by
  unfold splitParas
  rw [(splitParas_combined [] content).1, stripWs_nil, List.nil_append]

theorem splitParas_ne_nil (content : List Char) : splitParas content ≠ [] :=
  (splitParas_combined [] content).2

theorem stripWs_sliceChunks (k : Nat) (hk : 0 < k) : ∀ s : List Char,
    stripWs (sliceChunks k s).flatten = stripWs s := by
  refine sliceChunks.induct k (fun s => stripWs (sliceChunks k s).flatten = stripWs s) ?_ ?_
  · simp [sliceChunks, stripWs_nil]
  · intro c cs ih
    rw [sliceChunks.eq_2]
    have hdrop : List.drop (k - 1) cs = List.drop k (c :: cs) := by
      obtain ⟨m, rfl⟩ : ∃ m, k = m + 1 := ⟨k - 1, by omega⟩
      simp
    calc stripWs (trim ((c :: cs).take k) :: sliceChunks k (cs.drop (k - 1))).flatten
        = stripWs (trim ((c :: cs).take k)) ++ stripWs (sliceChunks k (cs.drop (k - 1))).flatten := by
          rw [List.flatten_cons, stripWs_append]
      _ = stripWs ((c :: cs).take k) ++ stripWs ((c :: cs).drop k) := by
          rw [stripWs_trim, ih, hdrop]
      _ = stripWs (c :: cs) := by rw [← stripWs_append, List.take_append_drop]

theorem sliceChunks_length_le (k : Nat) : ∀ s : List Char,
    ∀ t ∈ sliceChunks k s, t.length ≤ k := by
  refine sliceChunks.induct k (fun s => ∀ t ∈ sliceChunks k s, t.length ≤ k) ?_ ?_
  · simp [sliceChunks]
  · intro c cs ih t ht
    rw [sliceChunks.eq_2] at ht
    rcases List.mem_cons.mp ht with h | h
    · have h1 := trim_length_le ((c :: cs).take k)
      have h2 : ((c :: cs).take k).length ≤ k := by
        rw [List.length_take]
        exact min_le_left _ _
      subst h
      omega
    · exact ih t h

theorem segStep_stripWs (k : Nat) (hk : 0 < k) (buf para : List Char) :
    stripWs (segStep k buf para).1.flatten ++ stripWs (segStep k buf para).2
      = stripWs buf ++ stripWs para := by
  by_cases hb : buf.isEmpty
  · have hbuf : buf = [] := List.isEmpty_iff.mp hb
    subst hbuf
    simp only [segStep, List.isEmpty_nil, if_true]
    split_ifs with h1
    · simp [stripWs_nil]
    · simp [stripWs_nil, stripWs_sliceChunks k hk]
  · have hb' : buf.isEmpty = false := by
      simpa using hb
    simp only [segStep, hb', Bool.false_eq_true, if_false]
    split_ifs with h1 h2
    · simp only [List.flatten_nil, stripWs_nil, List.nil_append]
      rw [stripWs_append, stripWs_newline_cons, stripWs_newline_cons]
    · simp only []
      rw [stripWs_flushSeg]
    · simp only [stripWs_nil, List.append_nil]
      rw [List.flatten_append, stripWs_append, stripWs_flushSeg,
        stripWs_sliceChunks k hk]

theorem flushSeg_length_le (buf : List Char) :
    ∀ t ∈ flushSeg buf, t.length ≤ buf.length := by
  intro t ht
  unfold flushSeg at ht
  split_ifs at ht with h
  · simp at ht
  · rcases List.mem_singleton.mp ht with rfl
    exact trim_length_le buf

theorem segStep_length (k : Nat) (buf para : List Char) (hbuf : buf.length ≤ k) :
    (∀ t ∈ (segStep k buf para).1, t.length ≤ k) ∧ (segStep k buf para).2.length ≤ k := by
  by_cases hb : buf.isEmpty
  · have hbuf0 : buf = [] := List.isEmpty_iff.mp hb
    subst hbuf0
    simp only [segStep, List.isEmpty_nil, if_true]
    split_ifs with h1
    · exact ⟨by simp, h1⟩
    · refine ⟨?_, by simp⟩
      intro t ht
      simp only [List.nil_append] at ht
      exact sliceChunks_length_le k para t ht
  · have hb' : buf.isEmpty = false := by
      simpa using hb
    simp only [segStep, hb', Bool.false_eq_true, if_false]
    split_ifs with h1 h2
    · exact ⟨by simp, h1⟩
    · refine ⟨?_, h2⟩
      intro t ht
      simp only at ht
      have := flushSeg_length_le buf t ht
      omega
    · refine ⟨?_, by simp⟩
      intro t ht
      simp only at ht
      rcases List.mem_append.mp ht with h | h
      · have := flushSeg_length_le buf t h
        omega
      · exact sliceChunks_length_le k para t h

theorem segLoop_stripWs (k : Nat) (hk : 0 < k) :
    ∀ (ps : List (List Char)) (buf : List Char), ps ≠ [] →
      stripWs (segLoop k buf ps).flatten = stripWs buf ++ stripWs ps.flatten := by
  intro ps
  induction ps with
  | nil => intro buf h; exact absurd rfl h
  | cons p qs ih =>
    intro buf _
    have hstep := segStep_stripWs k hk buf p
    cases qs with
    | nil =>
      simp only [segLoop, List.flatten_cons, List.flatten_nil, List.append_nil]
      rw [List.flatten_append, stripWs_append]
      have hfin : stripWs (if (segStep k buf p).2.isEmpty then ([] : List (List Char))
          else flushSeg (segStep k buf p).2).flatten = stripWs (segStep k buf p).2 := by
        by_cases h : (segStep k buf p).2.isEmpty
        · rw [if_pos h, List.isEmpty_iff.mp h]
          rfl
        · rw [if_neg h, stripWs_flushSeg]
      rw [hfin, hstep]
    | cons q rs =>
      simp only [segLoop, List.flatten_cons]
      rw [List.flatten_append, stripWs_append, ih (segStep k buf p).2 (by simp),
        stripWs_append, ← List.append_assoc, hstep, List.append_assoc,
        List.flatten_cons]

theorem segLoop_length_le (k : Nat) :
    ∀ (ps : List (List Char)) (buf : List Char), buf.length ≤ k →
      ∀ t ∈ segLoop k buf ps, t.length ≤ k := by
  intro ps
  induction ps with
  | nil =>
    intro buf _ t ht
    simp [segLoop] at ht
  | cons p qs ih =>
    intro buf hbuf t ht
    have hstep := segStep_length k buf p hbuf
    cases qs with
    | nil =>
      simp only [segLoop] at ht
      rcases List.mem_append.mp ht with h | h
      · exact hstep.1 t h
      · split_ifs at h with hcond
        · simp at h
        · have := flushSeg_length_le (segStep k buf p).2 t h
          omega
    | cons q rs =>
      simp only [segLoop] at ht
      rcases List.mem_append.mp ht with h | h
      · exact hstep.1 t h
      · exact ih (segStep k buf p).2 hstep.2 t h

/-- Claim C2: for every content string and every positive threshold, erasing
whitespace from the concatenation (in ordinal order) of the segments the
segmenter produces equals the whitespace-erased original content: trimming and
dropped blank-line separators aside, no non-whitespace character is lost,
duplicated or reordered. -/
theorem segmentation_round_trip (content : List Char) (k : Nat) (hk : 0 < k) :
    stripWs (segmentContent k content).flatten = stripWs content := by
  unfold segmentContent
  rw [segLoop_stripWs k hk (splitParas content) [] (splitParas_ne_nil content),
    stripWs_nil, List.nil_append, stripWs_splitParas]

/-- Witness for `segmentation_round_trip` at a concrete oversized content and
threshold 5 (the content segments into several chunks). -/
theorem segmentation_round_trip_witness :
    0 < 5 ∧ stripWs (segmentContent 5 "ab\n\n  cd ef  \n\nghijklm".data).flatten
      = stripWs "ab\n\n  cd ef  \n\nghijklm".data :=
  ⟨by decide, segmentation_round_trip "ab\n\n  cd ef  \n\nghijklm".data 5 (by decide)⟩

/-- Claim C6: every segment the segmenter emits is already trimmed and its
length is at most the threshold — the greedy buffer never exceeds the
threshold, flushes stay within it, and oversized paragraphs are hard-sliced
into windows of at most the threshold length. -/
theorem segment_length_bounded (content : List Char) (k : Nat) (hk : 0 < k) :
    ∀ s ∈ segmentContent k content, s.length ≤ k := by
  intro s hs
  exact segLoop_length_le k (splitParas content) [] (by simp) s hs

/-- Witness for `segment_length_bounded`: a 13-character single paragraph with
threshold 5 is hard-sliced; every emitted segment fits the threshold. -/
theorem segment_length_bounded_witness :
    0 < 5 ∧ ∀ s ∈ segmentContent 5 "abcdefghijklm".data, s.length ≤ 5 :=
  ⟨by decide, segment_length_bounded "abcdefghijklm".data 5 (by decide)⟩

/-! ### apiClient lemmas and claim C10 -/

theorem isPre_append_self (p r : List Char) : isPre p (p ++ r) = true := by
  induction p with
  | nil => rfl
  | cons a as ih => simp [isPre, ih]

theorem isPre_false_of_prefix_false (p q b : List Char) (h : isPre p b = false) :
    isPre (p ++ q) b = false := by
  induction p generalizing b with
  | nil => simp [isPre] at h
  | cons a as ih =>
    cases b with
    | nil => rfl
    | cons x xs =>
      by_cases hax : (a == x) = true
      · simp only [isPre, hax, Bool.true_and] at h
        simp only [List.cons_append, isPre, hax, Bool.true_and]
        exact ih xs h
      · have hax' : (a == x) = false := by
          simpa using hax
        simp only [List.cons_append, isPre, hax', Bool.false_and]

/-- Claim C10, counterexample: the source's `replace(/^http/, 'ws')` is
anchored at the start of the base, so a base whose first `"http"` occurrence
is not at position 0 is returned unchanged, while the claim's
"first occurrence" reading would rewrite it. -/
theorem websocket_scheme_anchored_counterexample :
    getWebSocketBase "ahttpb".data = "ahttpb".data ∧
      replaceFirstHttp "ahttpb".data = "awsb".data ∧
      getWebSocketBase "ahttpb".data ≠ replaceFirstHttp "ahttpb".data :=
  ⟨by decide, by decide, by decide⟩

/-- Claim C10 as amended: `https://` bases map to `wss://` plus the unchanged
remainder, `http://` bases to `ws://` plus the unchanged remainder, any other
base starting with `http` has that leading `http` replaced by `ws`, and a base
not starting with `http` is returned unchanged (the replacement is anchored at
the start, not at the first occurrence). -/
theorem websocket_scheme_mapping :
    (∀ r : List Char, getWebSocketBase ("https://".data ++ r) = "wss://".data ++ r) ∧
    (∀ r : List Char, getWebSocketBase ("http://".data ++ r) = "ws://".data ++ r) ∧
    (∀ r : List Char, isPre "s://".data r = false → isPre "://".data r = false →
        getWebSocketBase ("http".data ++ r) = "ws".data ++ r) ∧
    (∀ b : List Char, isPre "http".data b = false → getWebSocketBase b = b) := by
  refine ⟨?_, ?_, ?_, ?_⟩
  · intro r
    have hc1 : isPre "https://".data ("https://".data ++ r) = true := isPre_append_self _ _
    have hdrop : ("https://".data ++ r).drop 8 = r := by
      rw [show (8 : Nat) = ("https://".data).length from rfl, List.drop_left]
    unfold getWebSocketBase
    split_ifs
    · rw [hdrop]
  · intro r
    have hc1 : isPre "https://".data ("http://".data ++ r) = false := rfl
    have hc2 : isPre "http://".data ("http://".data ++ r) = true := isPre_append_self _ _
    have hdrop : ("http://".data ++ r).drop 7 = r := by
      rw [show (7 : Nat) = ("http://".data).length from rfl, List.drop_left]
    unfold getWebSocketBase
    split_ifs with h1 h2
    · rw [hc1] at h1
      exact absurd h1 Bool.false_ne_true
    · rw [hdrop]
  · intro r hs hr
    have hc1 : isPre "https://".data ("http".data ++ r) = false := by
      rw [show isPre "https://".data ("http".data ++ r) = isPre "s://".data r from rfl]
      exact hs
    have hc2 : isPre "http://".data ("http".data ++ r) = false := by
      rw [show isPre "http://".data ("http".data ++ r) = isPre "://".data r from rfl]
      exact hr
    have hc3 : isPre "http".data ("http".data ++ r) = true := isPre_append_self _ _
    have hdrop : ("http".data ++ r).drop 4 = r := by
      rw [show (4 : Nat) = ("http".data).length from rfl, List.drop_left]
    unfold getWebSocketBase
    split_ifs with h1 h2
    · rw [hc1] at h1
      exact absurd h1 Bool.false_ne_true
    · rw [hc2] at h2
      exact absurd h2 Bool.false_ne_true
    · rw [hdrop]
  · intro b h
    have h1 : isPre "https://".data b = false := by
      rw [show "https://".data = "http".data ++ "s://".data from rfl]
      exact isPre_false_of_prefix_false _ _ _ h
    have h2 : isPre "http://".data b = false := by
      rw [show "http://".data = "http".data ++ "://".data from rfl]
      exact isPre_false_of_prefix_false _ _ _ h
    unfold getWebSocketBase
    split_ifs with g1 g2 g3
    · rw [h1] at g1
      exact absurd g1 Bool.false_ne_true
    · rw [h2] at g2
      exact absurd g2 Bool.false_ne_true
    · rw [h] at g3
      exact absurd g3 Bool.false_ne_true
    · rfl

/-- Witness for `websocket_scheme_mapping` at concrete bases, one per branch. -/
theorem websocket_scheme_mapping_witness :
    getWebSocketBase ("https://".data ++ "h1:443".data) = "wss://".data ++ "h1:443".data ∧
    getWebSocketBase ("http://".data ++ "localhost:8000".data)
      = "ws://".data ++ "localhost:8000".data ∧
    (isPre "s://".data ":8000".data = false ∧ isPre "://".data ":8000".data = false ∧
      getWebSocketBase ("http".data ++ ":8000".data) = "ws".data ++ ":8000".data) ∧
    (isPre "http".data "localhost".data = false ∧
      getWebSocketBase "localhost".data = "localhost".data) :=
  ⟨websocket_scheme_mapping.1 _, websocket_scheme_mapping.2.1 _,
    ⟨by decide, by decide, websocket_scheme_mapping.2.2.1 _ (by decide) (by decide)⟩,
    ⟨by decide, websocket_scheme_mapping.2.2.2 _ (by decide)⟩⟩

/-! ### Display queue and scheduler lemmas (claims C4, C5, C8, C9) -/

theorem processTimelineQueue_fifo (s : LabState)
    (h : s.enqueued = s.history ++ s.queue) :
    (processTimelineQueue s).enqueued
      = (processTimelineQueue s).history ++ (processTimelineQueue s).queue := by
  unfold processTimelineQueue
  split_ifs with hp
  · exact h
  · cases hq : s.queue with
    | nil => simp [hq, h]
    | cons e rest =>
      rw [hq] at h
      cases hcont : e.content with
      | none => simp [hcont, h]
      | some c =>
        cases c with
        | nil => simp [hcont, h]
        | cons a as => simp [hcont, h]

theorem fireTimer_fifo (s : LabState) (h : s.enqueued = s.history ++ s.queue) :
    (fireTimer s).enqueued = (fireTimer s).history ++ (fireTimer s).queue := by
  unfold fireTimer
  cases ht : s.timer with
  | none => simp [h]
  | some t =>
    cases t with
    | advance d => exact processTimelineQueue_fifo _ h
    | typing c i d =>
      by_cases hlt : i + 1 < c.length
      · simp [hlt, h]
      · simp [hlt, h]

theorem pushTimelineEvent_fifo (title : List Char) (content : Option (List Char))
    (s : LabState) (h : s.enqueued = s.history ++ s.queue) :
    (pushTimelineEvent title content s).enqueued
      = (pushTimelineEvent title content s).history
        ++ (pushTimelineEvent title content s).queue := by
  unfold pushTimelineEvent
  exact processTimelineQueue_fifo _ (by rw [h, List.append_assoc])

theorem runLab_fifo_aux : ∀ (ops : List LabOp) (s : LabState),
    s.enqueued = s.history ++ s.queue →
    (ops.foldl labStep s).enqueued
      = (ops.foldl labStep s).history ++ (ops.foldl labStep s).queue := by
  intro ops
  induction ops with
  | nil => intro s h; exact h
  | cons op rest ih =>
    intro s h
    rw [List.foldl_cons]
    refine ih _ ?_
    cases op with
    | push t c => exact pushTimelineEvent_fifo t c s h
    | tick => exact fireTimer_fifo s h

theorem mapIdxFrom_content (title : List Char) :
    ∀ (segs : List (List Char)) (i : Nat),
      (mapIdxFrom (fun j seg => TLEvent.mk (mkChunkTitle title j) (some seg)) i segs).map
        TLEvent.content = segs.map some := by
  intro segs
  induction segs with
  | nil => intro i; rfl
  | cons a as ih =>
    intro i
    simp only [mapIdxFrom, List.map_cons, ih]

/-- Claim C5: the display queue is strictly FIFO — over every operation
sequence, the events ever enqueued are exactly the events consumed so far (in
consumption order) followed by the events still queued (in queue order), so
consumption order is enqueue order; and the sub-segments of one oversized
event are enqueued in ascending ordinal order (the queued contents are the
segmenter's output list in order). -/
theorem display_queue_fifo :
    (∀ ops : List LabOp,
      (runLab ops).enqueued = (runLab ops).history ++ (runLab ops).queue) ∧
    (∀ title c : List Char,
      (pushedEvents title (some c)).map TLEvent.content =
        if TIMELINE_CHUNK_LENGTH < c.length
        then (segmentContent TIMELINE_CHUNK_LENGTH c).map some
        else [some c]) := by
  constructor
  · intro ops
    exact runLab_fifo_aux ops initLab rfl
  · intro title c
    by_cases hlen : TIMELINE_CHUNK_LENGTH < c.length
    · have hne : c.isEmpty = false := by
        cases c
        · simp [TIMELINE_CHUNK_LENGTH] at hlen
        · rfl
      have hcond : (strTruthy (some c)
          && decide (TIMELINE_CHUNK_LENGTH < ((some c).getD []).length)) = true := by
        simp [strTruthy, hne, hlen]
      unfold pushedEvents
      rw [if_pos hcond, if_pos hlen]
      exact mapIdxFrom_content title (segmentContent TIMELINE_CHUNK_LENGTH ((some c).getD [])) 0
    · have hcond : (strTruthy (some c)
          && decide (TIMELINE_CHUNK_LENGTH < ((some c).getD []).length)) = false := by
        simp [hlen]
      unfold pushedEvents
      rw [hcond]
      simp only [Bool.false_eq_true, if_false, if_neg hlen]
      rfl

theorem timerChainTime_typing (c : List Char) :
    ∀ n i, c.length - i = n → i < c.length →
      timerChainTime (Timer.typing c i TIMEWRITER_INTERVAL_MS)
        = TIMEWRITER_INTERVAL_MS * (c.length - i) + TIMELINE_SWITCH_DELAY_MS := by
  intro n
  induction n with
  | zero => intro i h hi; omega
  | succ m ih =>
    intro i h hi
    rw [timerChainTime.eq_2]
    by_cases hlt : i + 1 < c.length
    · rw [if_pos hlt, ih (i + 1) (by omega) hlt]
      simp only [TIMEWRITER_INTERVAL_MS, TIMELINE_SWITCH_DELAY_MS]
      omega
    · rw [if_neg hlt, timerChainTime.eq_1]
      have hlen : c.length - i = 1 := by omega
      rw [hlen]
      simp only [TIMEWRITER_INTERVAL_MS, TIMELINE_SWITCH_DELAY_MS]

/-- Claim C8: starting a queued event whose content is the non-empty string
`c` arms the `runTypewriter(0)` tick; the armed timer chain reveals one more
character per `TIMEWRITER_INTERVAL_MS` tick (the first `fireTimer` renders
exactly `c.take 1`), and its total delay until the advance callback is the
fixed function `TIMEWRITER_INTERVAL_MS * c.length + TIMELINE_SWITCH_DELAY_MS`
of the content length alone — independent of when the content arrived. -/
theorem pacing_fixed_reveal_time (s : LabState) (e : TLEvent) (rest : List TLEvent)
    (c : List Char) (hp : s.processing = false) (hq : s.queue = e :: rest)
    (hc : e.content = some c) (hne : c.isEmpty = false) :
    (processTimelineQueue s).timer = some (Timer.typing c 0 TIMEWRITER_INTERVAL_MS) ∧
    timerChainTime (Timer.typing c 0 TIMEWRITER_INTERVAL_MS)
      = TIMEWRITER_INTERVAL_MS * c.length + TIMELINE_SWITCH_DELAY_MS ∧
    (fireTimer (processTimelineQueue s)).rendered = c.take 1 := by
  have hlen : 0 < c.length := by
    cases c
    · simp at hne
    · simp
  have hps : processTimelineQueue s =
      { s with queue := rest, processing := true, current := some e,
               history := s.history ++ [e], rendered := [],
               timer := some (Timer.typing c 0 TIMEWRITER_INTERVAL_MS) } := by
    unfold processTimelineQueue
    rw [hp]
    simp only [Bool.false_eq_true, if_false]
    rw [hq]
    simp only []
    rw [hc]
    simp [hne]
  refine ⟨by rw [hps], ?_, ?_⟩
  · have := timerChainTime_typing c c.length 0 (by omega) hlen
    simpa using this
  · rw [hps]
    unfold fireTimer
    by_cases hlt : 0 + 1 < c.length
    · simp [hlt]
    · simp [hlt]

/-- Witness for `pacing_fixed_reveal_time`: a single queued event with content
`"ab"` in an otherwise idle pipeline. -/
theorem pacing_fixed_reveal_time_witness :
    (processTimelineQueue
        ⟨[⟨"t".data, some "ab".data⟩], false, none, none, [], [], []⟩).timer
      = some (Timer.typing "ab".data 0 TIMEWRITER_INTERVAL_MS) ∧
    timerChainTime (Timer.typing "ab".data 0 TIMEWRITER_INTERVAL_MS)
      = TIMEWRITER_INTERVAL_MS * "ab".data.length + TIMELINE_SWITCH_DELAY_MS ∧
    (fireTimer (processTimelineQueue
        ⟨[⟨"t".data, some "ab".data⟩], false, none, none, [], [], []⟩)).rendered
      = "ab".data.take 1 :=
  pacing_fixed_reveal_time _ _ _ _ rfl rfl rfl rfl

/-- Claim C9, counterexample: a whitespace-only content string of three
spaces is truthy in JavaScript, so `pushTimelineEvent` enqueues an event
*carrying* that whitespace content, and the scheduler starts the typewriter
for it (arming a `typing` timer) instead of giving it a content-free
label-only slot (an `advance` timer). -/
theorem whitespace_content_not_label_only :
    pushedEvents "准备".data (some "   ".data) = [⟨"准备".data, some "   ".data⟩] ∧
    (processTimelineQueue
        ⟨[⟨"准备".data, some "   ".data⟩], false, none, none, [], [], []⟩).timer
      = some (Timer.typing "   ".data 0 TIMEWRITER_INTERVAL_MS) :=
  ⟨by decide, by decide⟩

theorem splitSkip_replicate : ∀ n : Nat, splitSkip (List.replicate n '\n') = [[]] := by
  intro n
  induction n with
  | zero =>
    rw [List.replicate_zero, splitSkip.eq_2, splitParasAux.eq_1]
  | succ m ih =>
    rw [List.replicate_succ, splitSkip.eq_1, ih]

theorem splitParas_replicate_newlines (m : Nat) :
    splitParas (List.replicate (m + 2) '\n') = [[], []] := by
  unfold splitParas
  rw [show m + 2 = (m + 1) + 1 from rfl, List.replicate_succ, List.replicate_succ,
    splitParasAux.eq_2, splitSkip_replicate]

theorem segmentContent_blank_only :
    segmentContent TIMELINE_CHUNK_LENGTH (List.replicate 542 '\n') = [] := by
  unfold segmentContent
  rw [show (542 : Nat) = 540 + 2 from rfl, splitParas_replicate_newlines]
  rfl

/-- Claim C9 as amended: only *empty* content (absent or the empty string) is
given a label-only pacing slot — `pushTimelineEvent` enqueues the single event
unchanged and the scheduler arms one switch-delay slot with nothing rendered.
Whitespace-only non-empty content is not special-cased: content of length at
most the threshold is enqueued carrying the whitespace text, and a
blank-line-only content longer than the threshold yields zero segments and
hence no enqueued event at all. -/
theorem empty_content_label_only (title : List Char) (s : LabState) (e : TLEvent)
    (rest : List TLEvent) (hp : s.processing = false) (hq : s.queue = e :: rest)
    (hc : strTruthy e.content = false) :
    pushedEvents title none = [⟨title, none⟩] ∧
    pushedEvents title (some []) = [⟨title, some []⟩] ∧
    (∀ c : List Char, c.length ≤ TIMELINE_CHUNK_LENGTH →
        pushedEvents title (some c) = [⟨title, some c⟩]) ∧
    pushedEvents title (some (List.replicate 542 '\n')) = [] ∧
    (processTimelineQueue s).timer = some (Timer.advance TIMELINE_SWITCH_DELAY_MS) ∧
    (processTimelineQueue s).rendered = [] := by
  have hlabel : processTimelineQueue s =
      { s with queue := rest, processing := true, current := some e,
               history := s.history ++ [e], rendered := [],
               timer := some (Timer.advance TIMELINE_SWITCH_DELAY_MS) } := by
    unfold processTimelineQueue
    rw [hp]
    simp only [Bool.false_eq_true, if_false]
    rw [hq]
    simp only []
    cases hcont : e.content with
    | none => rfl
    | some c =>
      rw [hcont] at hc
      simp only [strTruthy, Bool.not_eq_false'] at hc
      simp [hc]
  refine ⟨rfl, rfl, ?_, ?_, by rw [hlabel], by rw [hlabel]⟩
  · intro c hle
    have hcond : (strTruthy (some c)
        && decide (TIMELINE_CHUNK_LENGTH < ((some c).getD []).length)) = false := by
      simp only [Option.getD_some, Bool.and_eq_false_iff]
      right
      simpa using Nat.not_lt.mpr hle
    unfold pushedEvents
    rw [hcond]
    simp
  · have hcond : (strTruthy (some (List.replicate 542 '\n'))
        && decide (TIMELINE_CHUNK_LENGTH
              < ((some (List.replicate 542 '\n')).getD []).length)) = true := by
      simp only [Bool.and_eq_true]
      refine ⟨?_, ?_⟩
      · rw [show (542 : Nat) = 541 + 1 from rfl, List.replicate_succ]
        rfl
      · simp only [Option.getD_some, List.length_replicate]
        rfl
    unfold pushedEvents
    rw [hcond, if_pos rfl]
    simp only [Option.getD_some, segmentContent_blank_only, mapIdxFrom]

/-- Witness for `empty_content_label_only`: an idle pipeline whose queue head
is a content-free event. -/
theorem empty_content_label_only_witness :
    pushedEvents "阶段".data none = [⟨"阶段".data, none⟩] ∧
    pushedEvents "阶段".data (some []) = [⟨"阶段".data, some []⟩] ∧
    (∀ c : List Char, c.length ≤ TIMELINE_CHUNK_LENGTH →
        pushedEvents "阶段".data (some c) = [⟨"阶段".data, some c⟩]) ∧
    pushedEvents "阶段".data (some (List.replicate 542 '\n')) = [] ∧
    (processTimelineQueue
        ⟨[⟨"阶段".data, none⟩], false, none, none, [], [], []⟩).timer
      = some (Timer.advance TIMELINE_SWITCH_DELAY_MS) ∧
    (processTimelineQueue
        ⟨[⟨"阶段".data, none⟩], false, none, none, [], [], []⟩).rendered = [] :=
  empty_content_label_only "阶段".data _ _ _ rfl rfl (by decide)

/-- Cancellation safety on the ResearchLab side: `resetTimeline` clears the
pending timeout, so advancing fake time by any number of timer firings leaves
the torn-down state untouched (no queue or rendered-content mutation). -/
theorem reset_timeline_halts (s : LabState) : ∀ n : Nat,
    iterFire n (resetTimeline s) = resetTimeline s := by
  have hfix : fireTimer (resetTimeline s) = resetTimeline s := rfl
  intro n
  induction n with
  | zero => rfl
  | succ m ih =>
    show iterFire m (fireTimer (resetTimeline s)) = resetTimeline s
    rw [hfix, ih]

/-- The same holds after a bare `stopTypewriter`. -/
theorem stop_typewriter_halts (s : LabState) : ∀ n : Nat,
    iterFire n (stopTypewriter s) = stopTypewriter s := by
  have hfix : fireTimer (stopTypewriter s) = stopTypewriter s := rfl
  intro n
  induction n with
  | zero => rfl
  | succ m ih =>
    show iterFire m (fireTimer (stopTypewriter s)) = stopTypewriter s
    rw [hfix, ih]

/-! ### ResearchLab session lemmas (the guarded fallback controller) -/

theorem rlFallbackStart_calls (reason : Option (List Char)) (s : RLState)
    (h : s.httpCalls = if s.fallbackTriggered then 1 else 0) :
    (rlFallbackStart reason s).httpCalls
      = if (rlFallbackStart reason s).fallbackTriggered then 1 else 0 := by
  by_cases hg : (s.fallbackTriggered || s.finalReceived) = true
  · rw [show rlFallbackStart reason s = s from by unfold rlFallbackStart; rw [if_pos hg]]
    exact h
  · have hres : (rlFallbackStart reason s).httpCalls = s.httpCalls + 1 ∧
        (rlFallbackStart reason s).fallbackTriggered = true := by
      unfold rlFallbackStart
      rw [if_neg hg]
      cases reason <;> exact ⟨rfl, rfl⟩
    have hft : s.fallbackTriggered = false := by
      cases hfb : s.fallbackTriggered
      · rfl
      · exact absurd (by rw [hfb, Bool.true_or]) hg
    rw [hres.1, hres.2, if_pos rfl, h, hft]
    simp

theorem rlStep_single_call (s : RLState) (op : RLOp)
    (h : s.httpCalls = if s.fallbackTriggered then 1 else 0) :
    (rlStep s op).httpCalls = if (rlStep s op).fallbackTriggered then 1 else 0 := by
  cases op with
  | message m =>
    cases m with
    | status message =>
      by_cases hf : s.finalReceived = true <;> simp [rlStep, hf, h]
    | timeline t c =>
      by_cases hf : s.finalReceived = true <;> simp [rlStep, hf, h]
    | final resp => simpa [rlStep] using h
    | errMsg message => simpa [rlStep] using h
    | malformed => simpa [rlStep] using h
  | errorEvt => exact rlFallbackStart_calls _ s h
  | closeEvt =>
    by_cases hf : s.finalReceived = true
    · simpa [rlStep, hf] using h
    · simp only [rlStep, hf, if_false]
      exact rlFallbackStart_calls none s h
  | httpOk resp =>
    by_cases hp : s.pendingHttp = 0 <;> simp [rlStep, hp, h]
  | httpFail message =>
    by_cases hp : s.pendingHttp = 0 <;> simp [rlStep, hp, h]

/-- ResearchLab's fallback controller is idempotent: over every delivered
event sequence — any interleaving of channel messages, `onerror`, `onclose`
and blocking-call resolutions — the number of issued blocking `runQuery`
calls is 1 when `fallbackTriggered` is set and 0 otherwise; in particular it
never exceeds one. -/
theorem rl_single_fallback_call : ∀ ops : List RLOp,
    (rlRun ops).httpCalls = if (rlRun ops).fallbackTriggered then 1 else 0 := by
  have haux : ∀ (ops : List RLOp) (s : RLState),
      s.httpCalls = (if s.fallbackTriggered then 1 else 0) →
      (ops.foldl rlStep s).httpCalls
        = if (ops.foldl rlStep s).fallbackTriggered then 1 else 0 := by
    intro ops
    induction ops with
    | nil => intro s h; exact h
    | cons op rest ih =>
      intro s h
      rw [List.foldl_cons]
      exact ih _ (rlStep_single_call s op h)
  intro ops
  exact haux ops rlInit rfl

/-- ResearchLab: a channel `onerror` with no prior event issues exactly one
blocking call and sets the idempotence flag. -/
theorem rl_error_one_call :
    (rlRun [RLOp.errorEvt]).httpCalls = 1 ∧
      (rlRun [RLOp.errorEvt]).fallbackTriggered = true :=
  ⟨rfl, rfl⟩

/-- ResearchLab's `socket.onmessage` drops non-terminal messages once
`finalReceived` is set: the session state is completely unchanged. -/
theorem rl_nonterminal_ignored_after_final (s : RLState) (m : Option (List Char))
    (t : List Char) (c : Option (List Char)) (h : s.finalReceived = true) :
    rlStep s (RLOp.message (RLMsg.status m)) = s ∧
    rlStep s (RLOp.message (RLMsg.timeline t c)) = s := by
  constructor <;> simp [rlStep, h]

/-- ResearchLab's fallback continuation marks `finalReceived` on success
(line 537), unlike the LearningStudio copy. -/
theorem rl_fallback_success_marks_final (s : RLState) (resp : RLResponse)
    (hpend : ¬s.pendingHttp = 0) :
    (rlStep s (RLOp.httpOk resp)).finalReceived = true := by
  simp [rlStep, hpend]

/-! ### QAEngine session theorems (claims C1, C3, C4) -/

/-- Claim C1: refuted on QAEngine's `handleSendMessage`.  When the channel
errors with no terminal event seen, `onerror` closes the socket and issues a
blocking call, and the close event it provoked fires `onclose`, which —
lacking any `fallbackTriggered` guard — issues a second blocking call: two
fallback HTTP calls for one request, where the claim allows at most one. -/
theorem qa_double_fallback_call :
    (qaRun [QAOp.errorEvt, QAOp.closeEvt]).httpCalls = 2 := rfl

/-- Claim C3: refuted on QAEngine's `socket.onmessage`.  After a terminal
`final` message set `finalReceived`, a subsequently delivered `status`
message is not ignored: the handler has no `finalReceived` guard and
synchronously appends a new segment to the assistant placeholder, mutating
the displayed content. -/
theorem qa_status_after_final_not_ignored :
    (qaRun [QAOp.msg (QAMsg.final sampleReply)]).finalReceived = true ∧
    (qaRun [QAOp.msg (QAMsg.final sampleReply),
        QAOp.msg (QAMsg.status "仍在处理".data)]).segments.length
      = (qaRun [QAOp.msg (QAMsg.final sampleReply)]).segments.length + 1 :=
  ⟨rfl, rfl⟩

/-- Claim C4: refuted on QAEngine.  `appendStreamSegment` never stores its
`setTimeout` handles, and the unmount cleanup (lines 513-520) only closes the
websocket, so a typewriter callback pending at teardown still fires
afterwards, mutates the displayed segment, and re-arms itself. -/
theorem qa_timer_survives_teardown :
    (qaRun [QAOp.msg (QAMsg.status "ab".data), QAOp.teardown]).timers ≠ [] ∧
    (qaRun [QAOp.msg (QAMsg.status "ab".data), QAOp.teardown, QAOp.fire 0]).segments
      ≠ (qaRun [QAOp.msg (QAMsg.status "ab".data), QAOp.teardown]).segments ∧
    (qaRun [QAOp.msg (QAMsg.status "ab".data), QAOp.teardown, QAOp.fire 0]).timers ≠ [] :=
  ⟨by decide, by decide, by decide⟩

/-! ### LearningStudio fallback theorem (claim C7) -/

/-- Claim C7: refuted on LearningStudio's `fallbackToHttp` (part_001 lines
665-685).  On a successful blocking call it stores the trimmed report,
enqueues the completion event and sets `fallbackTriggered` — but it never
marks `finalReceived`, so a stray terminal channel event would not be
guarded by it (the ResearchLab variant does set it, line 537). -/
theorem ls_fallback_success_no_final_mark :
    (lsFallbackToHttp none (Except.ok "策略研判报告全文".data) lsInit).fallbackTriggered = true ∧
    (lsFallbackToHttp none (Except.ok "策略研判报告全文".data) lsInit).httpCalls = 1 ∧
    (lsFallbackToHttp none (Except.ok "策略研判报告全文".data) lsInit).taskResult
      = some (trim "策略研判报告全文".data) ∧
    (lsFallbackToHttp none (Except.ok "策略研判报告全文".data) lsInit).finalReceived = false :=
  ⟨rfl, rfl, rfl, rfl⟩
